import Mathlib

/-!
A shallow embedding of the `carbonmap` crate (`src/lib.rs`): a concurrent
key/value container `CarbonMap<K, V>` holding one `HashMap<K, V>` behind one
`RwLock`, with `insert`, `get`, `remove` and an entry API
(`Entry`/`OccupiedEntry`/`VacantEntry`, `or_insert`, `or_insert_with`,
`and_modify`).

Modelling decisions:
* The underlying `std::collections::HashMap` is embedded as an association
  list `List (K × V)` in which the first occurrence of a key is the binding
  (a real `HashMap` never holds two bindings of one key; the well-formedness
  predicate `HMWF` states that, and every operation preserves it).
* Every public operation of the container acquires the lock, works on the
  store, and releases the lock; operations on one container are totally
  ordered by lock acquisition.  The embedding therefore gives each
  lock-serialized operation as a pure function from the store to its result
  and new store.
* The `.unwrap()` calls inside `OccupiedEntry::into_guard`, `get`, `get_mut`
  and `VacantEntry::insert` are embedded by returning `Option`: `none` is the
  panic branch.
* A mutation through the `&mut V` handed out by `get_mut` (as in
  `and_modify`) is embedded as replacing the key's binding in the store.
* `MappedRwLockWriteGuard<V>` is embedded as the value it dereferences to
  together with the state of the store that is published when the guard is
  dropped and the lock released.
-/

namespace Carbon

variable {K V : Type} [DecidableEq K]

/-- Embedding of `HashMap::get` (`map.get(key)`): the value at the first
binding of `k`, if any. -/
def hmGet (k : K) : List (K × V) → Option V
  | [] => none
  | (k1, v1) :: rest => if k1 = k then some v1 else hmGet k rest

/-- Embedding of `HashMap::insert` (`map.insert(key, val)`): overwrite the
binding of `k` if present, otherwise add a new binding. -/
def hmInsert (k : K) (v : V) : List (K × V) → List (K × V)
  | [] => [(k, v)]
  | (k1, v1) :: rest => if k1 = k then (k, v) :: rest else (k1, v1) :: hmInsert k v rest

/-- Embedding of `HashMap::remove` (`map.remove(key)`): the removed value (if
any) together with the store after removal. -/
def hmRemove (k : K) : List (K × V) → Option V × List (K × V)
  | [] => (none, [])
  | (k1, v1) :: rest =>
      if k1 = k then (some v1, rest)
      else
        let r := hmRemove k rest
        (r.1, (k1, v1) :: r.2)

/-- Embedding of `HashMap::contains_key`. -/
def hmContains (k : K) (m : List (K × V)) : Bool := (hmGet k m).isSome

/-- Well-formedness of the embedded store: a `HashMap` holds at most one
binding per key. -/
def HMWF (m : List (K × V)) : Prop := (m.map Prod.fst).Nodup

instance (m : List (K × V)) : Decidable (HMWF m) := by
  unfold HMWF; infer_instance

/-- `CarbonMap<K, V>`: the container owns one store behind one lock; the lock
itself has no residual state between operations, so the embedded container is
just the store. -/
structure CarbonMap (K V : Type) where
  inner : List (K × V)

/-- `OccupiedEntry<K, V>`: the key, plus the write guard (embedded as the
store it protects). -/
structure OccupiedEntry (K V : Type) where
  key : K
  guard : List (K × V)

/-- `VacantEntry<K, V>`: the key to be inserted, plus the write guard. -/
structure VacantEntry (K V : Type) where
  key : K
  guard : List (K × V)

/-- `Entry<K, V>`: the two-state entry machine. -/
inductive Entry (K V : Type) where
  | Occupied : OccupiedEntry K V → Entry K V
  | Vacant : VacantEntry K V → Entry K V

/-- `MappedRwLockWriteGuard<V>`: the value the guard dereferences to, and the
store as published when the guard drops. -/
structure MappedGuard (K V : Type) where
  value : V
  store : List (K × V)

/-- `CarbonMap::new`. -/
def CarbonMap.new : CarbonMap K V := ⟨[]⟩

/-- `CarbonMap::insert`: acquire the write lock, insert or overwrite,
release.  The result is the container after the operation. -/
def CarbonMap.insert (m : CarbonMap K V) (key : K) (val : V) : CarbonMap K V :=
  ⟨hmInsert key val m.inner⟩

/-- `CarbonMap::get`: acquire the read lock, look up, clone, release.  The
container is untouched, so only the cloned value is returned. -/
def CarbonMap.get (m : CarbonMap K V) (key : K) : Option V :=
  hmGet key m.inner

/-- `CarbonMap::remove`: acquire the write lock, remove, release.  Returns
the removed value and the container after the operation. -/
def CarbonMap.remove (m : CarbonMap K V) (key : K) : Option V × CarbonMap K V :=
  let r := hmRemove key m.inner
  (r.1, ⟨r.2⟩)

/-- `CarbonMap::entry`: acquire the write lock, classify by
`guard.contains_key(&key)` into `Occupied` or `Vacant`; the guard (the whole
store) moves into the entry. -/
def CarbonMap.entry (m : CarbonMap K V) (key : K) : Entry K V :=
  if hmContains key m.inner then .Occupied ⟨key, m.inner⟩ else .Vacant ⟨key, m.inner⟩

/-- `OccupiedEntry::into_guard`: map the write guard down to
`m.get_mut(&self.key).unwrap()`; `none` embeds the panic of the `unwrap`. -/
def OccupiedEntry.into_guard (e : OccupiedEntry K V) : Option (MappedGuard K V) :=
  match hmGet e.key e.guard with
  | some v => some ⟨v, e.guard⟩
  | none => none

/-- `OccupiedEntry::get`: `self.guard.get(&self.key).unwrap()`; `none` embeds
the panic of the `unwrap`. -/
def OccupiedEntry.get (e : OccupiedEntry K V) : Option V :=
  hmGet e.key e.guard

/-- `OccupiedEntry::get_mut`: `self.guard.get_mut(&self.key).unwrap()`;
`none` embeds the panic.  The `&mut V` it returns is embedded by reading the
current value; a write through it is `hmInsert` at the same key. -/
def OccupiedEntry.get_mut (e : OccupiedEntry K V) : Option V :=
  hmGet e.key e.guard

/-- `VacantEntry::insert`: `self.guard.insert(self.key.clone(), val)`, then
map the guard down to `m.get_mut(&self.key).unwrap()`. -/
def VacantEntry.insert (e : VacantEntry K V) (val : V) : Option (MappedGuard K V) :=
  let g := hmInsert e.key val e.guard
  match hmGet e.key g with
  | some v => some ⟨v, g⟩
  | none => none

/-- `Entry::or_insert`. -/
def Entry.or_insert (e : Entry K V) (default : V) : Option (MappedGuard K V) :=
  match e with
  | .Occupied o => o.into_guard
  | .Vacant vac => vac.insert default

/-- `Entry::or_insert_with`: on `Vacant` the producer is evaluated and its
result inserted; on `Occupied` the producer is ignored. -/
def Entry.or_insert_with (e : Entry K V) (f : Unit → V) : Option (MappedGuard K V) :=
  match e with
  | .Occupied o => o.into_guard
  | .Vacant vac => vac.insert (f ())

/-- `Entry::and_modify`: on `Occupied`, `f(e.get_mut())` — read through
`get_mut` (whose `unwrap` is the `Option`), apply `f`, write back through the
mutable borrow; on `Vacant`, the entry is returned unchanged and `f` is not
used. -/
def Entry.and_modify (e : Entry K V) (f : V → V) : Option (Entry K V) :=
  match e with
  | .Occupied o =>
      match o.get_mut with
      | some v => some (.Occupied ⟨o.key, hmInsert o.key (f v) o.guard⟩)
      | none => none
  | e => some e

/-- The store held by an entry's guard. -/
def Entry.store : Entry K V → List (K × V)
  | .Occupied o => o.guard
  | .Vacant vac => vac.guard

/-- Run a chain of `and_modify` calls on an entry (as in
`map.entry(k).and_modify(f1).and_modify(f2)...`). -/
def runMods : List (V → V) → Entry K V → Option (Entry K V)
  | [], e => some e
  | f :: fs, e => (e.and_modify f).bind (runMods fs)

/-- The key held by an entry. -/
def Entry.key : Entry K V → K
  | .Occupied o => o.key
  | .Vacant vac => vac.key

/-- The invariant behind the `unwrap`s: an `OccupiedEntry` key is present in
the guarded store. -/
def EntryWF : Entry K V → Prop
  | .Occupied o => (hmGet o.key o.guard).isSome = true
  | .Vacant _ => True

/-- One atomic `entry("counter").and_modify(|v| *v += 1).or_insert(1)` chain,
as performed by each thread of the `concurrent_entry_updates` test.  The
chain holds the container's exclusive write lock from the presence check
inside `entry` until the returned guard drops, so under the lock's total
serialization order every complete chain is one atomic step on the store. -/
def incChain (m : CarbonMap String Nat) : Option (CarbonMap String Nat) :=
  ((m.entry "counter").and_modify (fun v => v + 1)).bind
    (fun e => (e.or_insert 1).map (fun g => ⟨g.store⟩))

/-- Execute a schedule of chains: each list element is the id of the thread
whose next chain acquires the lock.  All chains are serialized by the single
container-wide lock, so an interleaved execution of the threads is exactly
some such schedule. -/
def execSched : List Nat → CarbonMap String Nat → Option (CarbonMap String Nat)
  | [], m => some m
  | _ :: rest, m => (incChain m).bind (execSched rest)

/- ================= Store lemmas ================= -/

theorem hmGet_hmInsert_self (k : K) (v : V) (m : List (K × V)) :
    hmGet k (hmInsert k v m) = some v := by
  induction m with
  | nil => simp [hmInsert, hmGet]
  | cons p rest ih =>
      obtain ⟨k1, v1⟩ := p
      by_cases h : k1 = k
      · simp [hmInsert, h, hmGet]
      · simp [hmInsert, h, hmGet, ih]

theorem hmGet_hmInsert_ne {k k2 : K} (h : k2 ≠ k) (v : V) (m : List (K × V)) :
    hmGet k2 (hmInsert k v m) = hmGet k2 m := by
  induction m with
  | nil => simp [hmInsert, hmGet, Ne.symm h]
  | cons p rest ih =>
      obtain ⟨k1, v1⟩ := p
      by_cases h1 : k1 = k
      · subst h1
        simp [hmInsert, hmGet, Ne.symm h]
      · by_cases h2 : k1 = k2
        · subst h2
          simp [hmInsert, h1, hmGet]
        · simp [hmInsert, h1, hmGet, h2, ih]

theorem hmRemove_fst (k : K) (m : List (K × V)) :
    (hmRemove k m).1 = hmGet k m := by
  induction m with
  | nil => simp [hmRemove, hmGet]
  | cons p rest ih =>
      obtain ⟨k1, v1⟩ := p
      by_cases h : k1 = k
      · simp [hmRemove, h, hmGet]
      · simp [hmRemove, h, hmGet, ih]

theorem hmGet_eq_none_of_not_mem {k : K} {m : List (K × V)}
    (h : k ∉ m.map Prod.fst) : hmGet k m = none := by
  induction m with
  | nil => simp [hmGet]
  | cons p rest ih =>
      obtain ⟨k1, v1⟩ := p
      simp only [List.map_cons, List.mem_cons] at h
      push_neg at h
      simp [hmGet, Ne.symm h.1, ih h.2]

theorem hmGet_hmRemove_self {k : K} {m : List (K × V)} (hwf : HMWF m) :
    hmGet k (hmRemove k m).2 = none := by
  induction m with
  | nil => simp [hmRemove, hmGet]
  | cons p rest ih =>
      obtain ⟨k1, v1⟩ := p
      unfold HMWF at hwf
      simp only [List.map_cons, List.nodup_cons] at hwf
      by_cases h : k1 = k
      · subst h
        simpa [hmRemove] using hmGet_eq_none_of_not_mem hwf.1
      · simp [hmRemove, h, hmGet, ih hwf.2]

theorem hmGet_hmRemove_ne {k k2 : K} (h : k2 ≠ k) (m : List (K × V)) :
    hmGet k2 (hmRemove k m).2 = hmGet k2 m := by
  induction m with
  | nil => simp [hmRemove]
  | cons p rest ih =>
      obtain ⟨k1, v1⟩ := p
      by_cases h1 : k1 = k
      · subst h1
        simp [hmRemove, hmGet, Ne.symm h]
      · by_cases h2 : k1 = k2
        · subst h2
          simp [hmRemove, h1, hmGet]
        · simp [hmRemove, h1, hmGet, h2, ih]

theorem hmRemove_absent {k : K} {m : List (K × V)} (h : hmGet k m = none) :
    hmRemove k m = (none, m) := by
  induction m with
  | nil => simp [hmRemove]
  | cons p rest ih =>
      obtain ⟨k1, v1⟩ := p
      by_cases h1 : k1 = k
      · simp [hmGet, h1] at h
      · simp only [hmGet, if_neg h1] at h
        simp [hmRemove, h1, ih h]

/- ================= Entry lemmas ================= -/

theorem entry_present {m : CarbonMap K V} {k : K} {v : V} (h : m.get k = some v) :
    m.entry k = .Occupied ⟨k, m.inner⟩ := by
  unfold CarbonMap.get at h
  simp [CarbonMap.entry, hmContains, h]

theorem entry_absent {m : CarbonMap K V} {k : K} (h : m.get k = none) :
    m.entry k = .Vacant ⟨k, m.inner⟩ := by
  unfold CarbonMap.get at h
  simp [CarbonMap.entry, hmContains, h]

theorem vacant_insert_eq (vac : VacantEntry K V) (v : V) :
    vac.insert v = some ⟨v, hmInsert vac.key v vac.guard⟩ := by
  simp [VacantEntry.insert, hmGet_hmInsert_self]

theorem occupied_into_guard_eq {k2 : K} {g : List (K × V)} {v : V}
    (h : hmGet k2 g = some v) :
    OccupiedEntry.into_guard ⟨k2, g⟩ = some ⟨v, g⟩ := by
  simp [OccupiedEntry.into_guard, h]

theorem entry_key_eq (m : CarbonMap K V) (k : K) : (m.entry k).key = k := by
  cases hg : m.get k with
  | none => simp [entry_absent hg, Entry.key]
  | some v => simp [entry_present hg, Entry.key]

theorem entry_store_eq (m : CarbonMap K V) (k : K) : (m.entry k).store = m.inner := by
  cases hg : m.get k with
  | none => simp [entry_absent hg, Entry.store]
  | some v => simp [entry_present hg, Entry.store]

theorem entryWF_entry (m : CarbonMap K V) (k : K) : EntryWF (m.entry k) := by
  cases hg : m.get k with
  | none => simp [entry_absent hg, EntryWF]
  | some v =>
      rw [entry_present hg]
      unfold CarbonMap.get at hg
      simp [EntryWF, hg]

theorem and_modify_WF {e : Entry K V} (hwf : EntryWF e) (f : V → V) :
    ∃ e2, e.and_modify f = some e2 ∧ EntryWF e2 := by
  cases e with
  | Vacant vac => exact ⟨.Vacant vac, rfl, trivial⟩
  | Occupied o =>
      unfold EntryWF at hwf
      obtain ⟨v, hv⟩ := Option.isSome_iff_exists.mp hwf
      refine ⟨.Occupied ⟨o.key, hmInsert o.key (f v) o.guard⟩, ?_, ?_⟩
      · simp [Entry.and_modify, OccupiedEntry.get_mut, hv]
      · simp [EntryWF, hmGet_hmInsert_self]

theorem runMods_WF {e : Entry K V} (hwf : EntryWF e) (fs : List (V → V)) :
    ∃ e2, runMods fs e = some e2 ∧ EntryWF e2 := by
  induction fs generalizing e with
  | nil => exact ⟨e, rfl, hwf⟩
  | cons f fs ih =>
      obtain ⟨e1, he1, hwf1⟩ := and_modify_WF hwf f
      obtain ⟨e2, he2, hwf2⟩ := ih hwf1
      exact ⟨e2, by simp [runMods, he1, he2], hwf2⟩

theorem and_modify_frame {e e2 : Entry K V} {f : V → V}
    (h : e.and_modify f = some e2) :
    e2.key = e.key ∧ ∀ k2, k2 ≠ e.key → hmGet k2 e2.store = hmGet k2 e.store := by
  cases e with
  | Vacant vac =>
      simp only [Entry.and_modify, Option.some.injEq] at h
      subst h
      exact ⟨rfl, fun _ _ => rfl⟩
  | Occupied o =>
      cases hv : hmGet o.key o.guard with
      | none =>
          simp [Entry.and_modify, OccupiedEntry.get_mut, hv] at h
      | some v =>
          simp only [Entry.and_modify, OccupiedEntry.get_mut, hv,
            Option.some.injEq] at h
          subst h
          refine ⟨rfl, fun k2 hne => ?_⟩
          simpa [Entry.store, Entry.key] using
            hmGet_hmInsert_ne (by simpa [Entry.key] using hne) (f v) o.guard

theorem runMods_frame {fs : List (V → V)} {e e2 : Entry K V}
    (h : runMods fs e = some e2) :
    e2.key = e.key ∧ ∀ k2, k2 ≠ e.key → hmGet k2 e2.store = hmGet k2 e.store := by
  induction fs generalizing e with
  | nil =>
      simp only [runMods, Option.some.injEq] at h
      subst h
      exact ⟨rfl, fun _ _ => rfl⟩
  | cons f fs ih =>
      simp only [runMods, Option.bind_eq_some] at h
      obtain ⟨e1, he1, hrest⟩ := h
      obtain ⟨hk1, hs1⟩ := and_modify_frame he1
      obtain ⟨hk2, hs2⟩ := ih hrest
      refine ⟨hk2.trans hk1, fun k2 hne => ?_⟩
      rw [hs2 k2 (fun hh => hne (hh.trans hk1)), hs1 k2 hne]

theorem or_insert_frame {e : Entry K V} {d : V} {g : MappedGuard K V}
    (h : e.or_insert d = some g) :
    ∀ k2, k2 ≠ e.key → hmGet k2 g.store = hmGet k2 e.store := by
  cases e with
  | Occupied o =>
      intro k2 hne
      cases hv : hmGet o.key o.guard with
      | none => simp [Entry.or_insert, OccupiedEntry.into_guard, hv] at h
      | some v =>
          simp only [Entry.or_insert, OccupiedEntry.into_guard, hv,
            Option.some.injEq] at h
          subst h
          simp [Entry.store]
  | Vacant vac =>
      intro k2 hne
      simp only [Entry.or_insert, vacant_insert_eq, Option.some.injEq] at h
      subst h
      simpa [Entry.store] using
        hmGet_hmInsert_ne (by simpa [Entry.key] using hne) d vac.guard

theorem or_insert_with_eq_or_insert (e : Entry K V) (f : Unit → V) :
    e.or_insert_with f = e.or_insert (f ()) := by
  cases e with
  | Occupied o => rfl
  | Vacant vac => rfl

theorem incChain_get (m : CarbonMap String Nat) :
    ∃ m2, incChain m = some m2
      ∧ m2.get "counter" = some ((m.get "counter").getD 0 + 1) := by
  cases hg : m.get "counter" with
  | none =>
      refine ⟨⟨hmInsert "counter" 1 m.inner⟩, ?_, ?_⟩
      · simp [incChain, entry_absent hg, Entry.and_modify, Entry.or_insert,
          vacant_insert_eq]
      · simp [CarbonMap.get, hmGet_hmInsert_self]
  | some n =>
      have hv : hmGet "counter" m.inner = some n := hg
      refine ⟨⟨hmInsert "counter" (n + 1) m.inner⟩, ?_, ?_⟩
      · simp [incChain, entry_present hg, Entry.and_modify, OccupiedEntry.get_mut,
          hv, Entry.or_insert, OccupiedEntry.into_guard, hmGet_hmInsert_self]
      · simp [CarbonMap.get, hmGet_hmInsert_self]

theorem execSched_counter (sched : List Nat) :
    ∀ (m : CarbonMap String Nat) (n : Nat), m.get "counter" = some n →
    ∃ m2, execSched sched m = some m2
      ∧ m2.get "counter" = some (n + sched.length) := by
  induction sched with
  | nil =>
      intro m n h
      exact ⟨m, rfl, by simpa using h⟩
  | cons t rest ih =>
      intro m n h
      obtain ⟨m1, hm1, hg1⟩ := incChain_get m
      rw [h] at hg1
      simp only [Option.getD_some] at hg1
      obtain ⟨m2, hm2, hg2⟩ := ih m1 (n + 1) hg1
      refine ⟨m2, by simp [execSched, hm1, hm2], ?_⟩
      exact hg2.trans (congrArg some (by simp only [List.length_cons]; omega))

/- ================= Claim theorems ================= -/

/-- Claim C1: for every key `k` and value `v`, `insert(k, v)` followed by
`get(k)` returns `Some(v)`. -/
theorem insert_then_get (m : CarbonMap K V) (k : K) (v : V) :
    (m.insert k v).get k = some v := by
  simpa [CarbonMap.insert, CarbonMap.get] using hmGet_hmInsert_self k v m.inner

/-- Claim C2: `insert(k, v1); insert(k, v2)` leaves the container with
`get(k) = Some(v2)`: the second insert overwrites the first. -/
theorem insert_insert_get (m : CarbonMap K V) (k : K) (v1 v2 : V) :
    ((m.insert k v1).insert k v2).get k = some v2 := by
  simpa [CarbonMap.insert, CarbonMap.get] using
    hmGet_hmInsert_self k v2 (hmInsert k v1 m.inner)

/-- Claim C3: on a well-formed store, if `k` is present with value `v` then
`remove(k)` returns `Some(v)` and a subsequent `get(k)` returns `None`; if
`k` is absent then `remove(k)` returns `None` and leaves the container
unchanged. -/
theorem remove_spec (m : CarbonMap K V) (k : K) (hwf : HMWF m.inner) :
    (∀ v, m.get k = some v → (m.remove k).1 = some v ∧ (m.remove k).2.get k = none)
    ∧ (m.get k = none → m.remove k = (none, m)) := by
  constructor
  · intro v hv
    unfold CarbonMap.get at hv
    refine ⟨?_, ?_⟩
    · simp [CarbonMap.remove, hmRemove_fst, hv]
    · simp [CarbonMap.remove, CarbonMap.get, hmGet_hmRemove_self hwf]
  · intro h
    unfold CarbonMap.get at h
    simp [CarbonMap.remove, hmRemove_absent h]

/-- Witness for C3 at the container `{1 ↦ 10}`: removing key 1 returns the
value and empties it; removing key 2 is a no-op returning `None`. -/
theorem remove_spec_witness :
    ((⟨[(1, 10)]⟩ : CarbonMap Nat Nat).remove 1).1 = some 10
    ∧ ((⟨[(1, 10)]⟩ : CarbonMap Nat Nat).remove 1).2.get 1 = none
    ∧ (⟨[(1, 10)]⟩ : CarbonMap Nat Nat).remove 2 = (none, ⟨[(1, 10)]⟩) :=
  ⟨((remove_spec ⟨[(1, 10)]⟩ 1 (by decide)).1 10 (by decide)).1,
   ((remove_spec ⟨[(1, 10)]⟩ 1 (by decide)).1 10 (by decide)).2,
   (remove_spec ⟨[(1, 10)]⟩ 2 (by decide)).2 (by decide)⟩

/-- Claim C7: `entry(k)` returns the `Occupied` variant exactly when `k` is
present and the `Vacant` variant exactly when it is absent, and the entry
carries the store's contents unchanged (its guard is `m.inner`). -/
theorem entry_classification (m : CarbonMap K V) (k : K) :
    (match m.entry k with
      | .Occupied _ => (m.get k).isSome = true
      | .Vacant _ => m.get k = none)
    ∧ ((m.get k).isSome = true → m.entry k = .Occupied ⟨k, m.inner⟩)
    ∧ (m.get k = none → m.entry k = .Vacant ⟨k, m.inner⟩)
    ∧ (m.entry k).store = m.inner := by
  refine ⟨?_, ?_, ?_, ?_⟩
  · cases hg : m.get k with
    | none => simp [entry_absent hg, hg]
    | some v => simp [entry_present hg, hg]
  · intro h
    cases hg : m.get k with
    | none => simp [hg] at h
    | some v => exact entry_present hg
  · intro h
    exact entry_absent h
  · cases hg : m.get k with
    | none => simp [entry_absent hg, Entry.store]
    | some v => simp [entry_present hg, Entry.store]

/-- Witness for C7 at the container `{1 ↦ 10}`: key 1 yields `Occupied`,
key 2 yields `Vacant`, both carrying the untouched store. -/
theorem entry_classification_witness :
    (⟨[(1, 10)]⟩ : CarbonMap Nat Nat).entry 1 = .Occupied ⟨1, [(1, 10)]⟩
    ∧ (⟨[(1, 10)]⟩ : CarbonMap Nat Nat).entry 2 = .Vacant ⟨2, [(1, 10)]⟩ :=
  ⟨(entry_classification ⟨[(1, 10)]⟩ 1).2.1 (by decide),
   (entry_classification ⟨[(1, 10)]⟩ 2).2.2.1 (by decide)⟩

/-- Claim C4: if `k` is absent, `entry(k).or_insert(d)` inserts `d` under `k`
and the returned guard dereferences to `d`; if `k` is present with value `v`,
the guard dereferences to `v` and the stored value is unchanged. -/
theorem entry_or_insert_spec (m : CarbonMap K V) (k : K) (d : V) :
    (m.get k = none →
      (m.entry k).or_insert d = some ⟨d, hmInsert k d m.inner⟩
      ∧ (CarbonMap.mk (hmInsert k d m.inner)).get k = some d)
    ∧ (∀ v, m.get k = some v →
      (m.entry k).or_insert d = some ⟨v, m.inner⟩) := by
  constructor
  · intro h
    rw [entry_absent h]
    exact ⟨by simp [Entry.or_insert, vacant_insert_eq],
      by simp [CarbonMap.get, hmGet_hmInsert_self]⟩
  · intro v hv
    rw [entry_present hv]
    unfold CarbonMap.get at hv
    simp [Entry.or_insert, occupied_into_guard_eq hv]

/-- Witness for C4: on the empty container `or_insert 5` at key 1 inserts 5;
on `{1 ↦ 10}` it returns a guard over 10 with the store untouched. -/
theorem entry_or_insert_spec_witness :
    ((⟨[]⟩ : CarbonMap Nat Nat).entry 1).or_insert 5 = some ⟨5, [(1, 5)]⟩
    ∧ (CarbonMap.mk [(1, 5)]).get 1 = some 5
    ∧ ((⟨[(1, 10)]⟩ : CarbonMap Nat Nat).entry 1).or_insert 5 = some ⟨10, [(1, 10)]⟩ :=
  ⟨((entry_or_insert_spec ⟨[]⟩ 1 5).1 (by decide)).1,
   ((entry_or_insert_spec ⟨[]⟩ 1 5).1 (by decide)).2,
   (entry_or_insert_spec ⟨[(1, 10)]⟩ 1 5).2 10 (by decide)⟩

/-- Claim C5: `entry(k).and_modify(f)` applies `f` to the stored value in
place and returns `Occupied` exactly when `k` is present; when `k` is absent
it never invokes the modifier (the result is the same for every modifier
`g`), leaves the container unchanged, and returns the same `Vacant` entry. -/
theorem entry_and_modify_spec (m : CarbonMap K V) (k : K) (f : V → V) :
    (∀ v, m.get k = some v →
      (m.entry k).and_modify f = some (.Occupied ⟨k, hmInsert k (f v) m.inner⟩)
      ∧ (CarbonMap.mk (hmInsert k (f v) m.inner)).get k = some (f v))
    ∧ (m.get k = none →
      (∀ g : V → V, (m.entry k).and_modify g = some (m.entry k))
      ∧ m.entry k = .Vacant ⟨k, m.inner⟩) := by
  constructor
  · intro v hv
    rw [entry_present hv]
    unfold CarbonMap.get at hv
    exact ⟨by simp [Entry.and_modify, OccupiedEntry.get_mut, hv],
      by simp [CarbonMap.get, hmGet_hmInsert_self]⟩
  · intro h
    refine ⟨fun g => ?_, entry_absent h⟩
    rw [entry_absent h]
    simp [Entry.and_modify]

/-- Witness for C5: on `{1 ↦ 10}` the modifier `+5` is applied in place; on
the empty container `and_modify` returns the `Vacant` entry unchanged. -/
theorem entry_and_modify_spec_witness :
    ((⟨[(1, 10)]⟩ : CarbonMap Nat Nat).entry 1).and_modify (fun v => v + 5)
        = some (.Occupied ⟨1, [(1, 15)]⟩)
    ∧ (CarbonMap.mk [(1, 15)]).get 1 = some 15
    ∧ ((⟨[]⟩ : CarbonMap Nat Nat).entry 1).and_modify (fun v => v + 5)
        = some ((⟨[]⟩ : CarbonMap Nat Nat).entry 1) :=
  by
  refine ⟨?_, ?_, ?_⟩
  · exact ((entry_and_modify_spec ⟨[(1, 10)]⟩ 1 (fun v => v + 5)).1 10 (by decide)).1
  · exact ((entry_and_modify_spec ⟨[(1, 10)]⟩ 1 (fun v => v + 5)).1 10 (by decide)).2
  · exact ((entry_and_modify_spec ⟨[]⟩ 1 (fun v => v + 5)).2 (by decide)).1 (fun v => v + 5)

/-- Claim C6: if `k` is absent, `entry(k).or_insert_with(f)` inserts the
single evaluation `f ()` and returns a guard over it; if `k` is present, the
result is the same for every producer `g` (so `f` is never evaluated) and the
guard covers the existing value with the store untouched. -/
theorem entry_or_insert_with_spec (m : CarbonMap K V) (k : K) (f : Unit → V) :
    (m.get k = none →
      (m.entry k).or_insert_with f = some ⟨f (), hmInsert k (f ()) m.inner⟩
      ∧ (CarbonMap.mk (hmInsert k (f ()) m.inner)).get k = some (f ()))
    ∧ (∀ v, m.get k = some v → ∀ g : Unit → V,
      (m.entry k).or_insert_with g = some ⟨v, m.inner⟩) := by
  constructor
  · intro h
    rw [entry_absent h]
    exact ⟨by simp [Entry.or_insert_with, vacant_insert_eq],
      by simp [CarbonMap.get, hmGet_hmInsert_self]⟩
  · intro v hv g
    rw [entry_present hv]
    unfold CarbonMap.get at hv
    simp [Entry.or_insert_with, occupied_into_guard_eq hv]

/-- Witness for C6: on the empty container the producer's value 42 is
inserted at key 1; on `{1 ↦ 10}` any producer is ignored and the guard
covers 10. -/
theorem entry_or_insert_with_spec_witness :
    ((⟨[]⟩ : CarbonMap Nat Nat).entry 1).or_insert_with (fun _ => 42)
        = some ⟨42, [(1, 42)]⟩
    ∧ (CarbonMap.mk [(1, 42)]).get 1 = some 42
    ∧ ((⟨[(1, 10)]⟩ : CarbonMap Nat Nat).entry 1).or_insert_with (fun _ => 42)
        = some ⟨10, [(1, 10)]⟩ :=
  ⟨((entry_or_insert_with_spec ⟨[]⟩ 1 (fun _ => 42)).1 (by decide)).1,
   ((entry_or_insert_with_spec ⟨[]⟩ 1 (fun _ => 42)).1 (by decide)).2,
   (entry_or_insert_with_spec ⟨[(1, 10)]⟩ 1 (fun _ => 42)).2 10 (by decide) (fun _ => 42)⟩

/-- Claim C8: the exclusive lock is held from the presence check in `entry`
through the final mutation or insertion, so each
`entry("counter").and_modify(|v| *v += 1).or_insert(1)` chain is one atomic
step in the lock's total serialization order (`incChain`); for all
`N, K ≥ 1`, any schedule of the `N` threads' `N*K` chains, run from the empty
container, ends with `get("counter") = Some(N*K)` — no lost updates. -/
theorem concurrent_counter_exact (tN tK : Nat) (sched : List Nat)
    (hN : 1 ≤ tN) (hK : 1 ≤ tK) (hlen : sched.length = tN * tK) :
    ∃ m2, execSched sched CarbonMap.new = some m2
      ∧ m2.get "counter" = some (tN * tK) := by
  have hpos : 0 < sched.length := by
    rw [hlen]; exact Nat.mul_pos hN hK
  cases sched with
  | nil => simp at hpos
  | cons t rest =>
      obtain ⟨m1, hm1, hg1⟩ := incChain_get CarbonMap.new
      have hnew : (CarbonMap.new : CarbonMap String Nat).get "counter" = none := rfl
      rw [hnew] at hg1
      simp only [Option.getD_none, Nat.zero_add] at hg1
      obtain ⟨m2, hm2, hg2⟩ := execSched_counter rest m1 1 hg1
      refine ⟨m2, by simp [execSched, hm1, hm2], ?_⟩
      refine hg2.trans (congrArg some ?_)
      rw [← hlen]
      simp only [List.length_cons]
      omega

/-- Witness for C8 with `N = 2` threads of `K = 1` chain each, schedule
thread 0 then thread 1: the counter ends at exactly `2 * 1`. -/
theorem concurrent_counter_exact_witness :
    ∃ m2, execSched [0, 1] CarbonMap.new = some m2
      ∧ m2.get "counter" = some (2 * 1) :=
  concurrent_counter_exact 2 1 [0, 1] (by decide) (by decide) (by decide)

/-- Claim C9: every entry chain started by `entry(k)` — any sequence of
`and_modify` steps — succeeds, and yields an entry on which no `unwrap` can
panic: `into_guard`, `get` and `get_mut` succeed when the result is
`Occupied`, and the lookup after `VacantEntry::insert`'s own insertion
succeeds when it is `Vacant`. -/
theorem entry_chain_unwrap_safe (m : CarbonMap K V) (k : K) (fs : List (V → V)) :
    ∃ e, runMods fs (m.entry k) = some e
      ∧ (∀ o, e = .Occupied o →
          o.into_guard.isSome = true ∧ o.get.isSome = true ∧ o.get_mut.isSome = true)
      ∧ (∀ vac, e = .Vacant vac → ∀ v : V, (vac.insert v).isSome = true) := by
  obtain ⟨e, he, hwf⟩ := runMods_WF (entryWF_entry m k) fs
  refine ⟨e, he, ?_, ?_⟩
  · rintro o rfl
    unfold EntryWF at hwf
    obtain ⟨v, hv⟩ := Option.isSome_iff_exists.mp hwf
    exact ⟨by simp [OccupiedEntry.into_guard, hv],
      by simp [OccupiedEntry.get, hv],
      by simp [OccupiedEntry.get_mut, hv]⟩
  · rintro vac rfl v
    simp [vacant_insert_eq]

/-- Witness for C9 at `{1 ↦ 10}` with the chain `and_modify (+1)`. -/
theorem entry_chain_unwrap_safe_witness :
    ∃ e, runMods [fun v => v + 1] ((⟨[(1, 10)]⟩ : CarbonMap Nat Nat).entry 1) = some e
      ∧ (∀ o, e = .Occupied o →
          o.into_guard.isSome = true ∧ o.get.isSome = true ∧ o.get_mut.isSome = true)
      ∧ (∀ vac, e = .Vacant vac → ∀ v : Nat, (vac.insert v).isSome = true) :=
  entry_chain_unwrap_safe ⟨[(1, 10)]⟩ 1 [fun v => v + 1]

/-- Claim C10: every operation targeting key `k` — `insert`, `remove`, and
any `entry(k)` chain of `and_modify` steps ending in `or_insert` or
`or_insert_with` — leaves the binding of every other key `k2 ≠ k` unchanged
(`get` itself touches nothing: in the embedding it returns a clone and no
store). -/
theorem frame_other_keys (m : CarbonMap K V) (k k2 : K) (hne : k2 ≠ k)
    (v d : V) (f : Unit → V) (fs : List (V → V)) :
    (m.insert k v).get k2 = m.get k2
    ∧ (m.remove k).2.get k2 = m.get k2
    ∧ (∀ e, runMods fs (m.entry k) = some e →
        hmGet k2 e.store = m.get k2
        ∧ (∀ g, e.or_insert d = some g → hmGet k2 g.store = m.get k2)
        ∧ (∀ g, e.or_insert_with f = some g → hmGet k2 g.store = m.get k2)) := by
  refine ⟨?_, ?_, ?_⟩
  · simpa [CarbonMap.insert, CarbonMap.get] using hmGet_hmInsert_ne hne v m.inner
  · simpa [CarbonMap.remove, CarbonMap.get] using hmGet_hmRemove_ne hne m.inner
  · intro e he
    obtain ⟨hkeyE, hframeE⟩ := runMods_frame he
    have hne2 : k2 ≠ (m.entry k).key := by rw [entry_key_eq]; exact hne
    have h1 : hmGet k2 e.store = m.get k2 := by
      rw [hframeE k2 hne2, entry_store_eq]; rfl
    have hneE : k2 ≠ e.key := by rw [hkeyE]; exact hne2
    refine ⟨h1, fun g hg2 => ?_, fun g hg2 => ?_⟩
    · rw [or_insert_frame hg2 k2 hneE, h1]
    · rw [or_insert_with_eq_or_insert] at hg2
      rw [or_insert_frame hg2 k2 hneE, h1]

/-- Witness for C10 at `{1 ↦ 10, 2 ↦ 20}`, operating on key 1 and observing
key 2: insert, remove, an `and_modify (+1)` chain, and its `or_insert` all
leave key 2 bound to 20. -/
theorem frame_other_keys_witness :
    ((⟨[(1, 10), (2, 20)]⟩ : CarbonMap Nat Nat).insert 1 7).get 2 = some 20
    ∧ ((⟨[(1, 10), (2, 20)]⟩ : CarbonMap Nat Nat).remove 1).2.get 2 = some 20
    ∧ hmGet 2 (Entry.store (.Occupied ⟨1, [(1, 11), (2, 20)]⟩ : Entry Nat Nat)) = some 20
    ∧ hmGet 2 (MappedGuard.store (⟨11, [(1, 11), (2, 20)]⟩ : MappedGuard Nat Nat)) = some 20 := by
  have h := frame_other_keys ⟨[(1, 10), (2, 20)]⟩ 1 2 (by decide) 7 9 (fun _ => 3)
    [fun x => x + 1]
  have hchain := h.2.2 (.Occupied ⟨1, [(1, 11), (2, 20)]⟩) rfl
  exact ⟨h.1.trans (by decide), h.2.1.trans (by decide),
    hchain.1.trans (by decide),
    (hchain.2.1 ⟨11, [(1, 11), (2, 20)]⟩ rfl).trans (by decide)⟩

end Carbon
